import Mathlib

set_option linter.unusedSectionVars false

/-!
Shallow embedding of the `DecisionTreeClassifier` from `decision_tree.ipynb`.

Python numbers are modelled as rationals, categorical tokens as strings and
the `None` missing-value sentinel as a dedicated constructor.  Class labels
are an arbitrary type with decidable equality.  Python code that can raise
an exception (IndexError on out-of-range list access, TypeError when a
string is compared with `<=` against a number, IndexError when taking the
most common element of an empty `Counter`) is modelled with `Option`:
`none` means the corresponding Python call raises.
-/

namespace DecisionTree

/-- A feature value: a Python number, a categorical token, or `None`. -/
inductive Value : Type where
  | num (q : ℚ)
  | cat (s : String)
  | missing
deriving DecidableEq

abbrev Sample := List Value

/-- The dictionaries produced by `_build_tree`: `{'type': 'leaf', 'class': c}`
or `{'type': 'node', 'feature_index': fi, 'feature_name': nm,
'threshold': thr, 'left': l, 'right': r}`. -/
inductive Tree (α : Type) : Type where
  | leaf (label : α)
  | node (featureIndex : ℕ) (featureName : Option String) (threshold : Value)
      (left : Tree α) (right : Tree α)
deriving DecidableEq

variable {α : Type} [DecidableEq α]

/-- Distinct elements of a list in first-occurrence order, with an
accumulator of elements already seen.  This is the insertion order of the
keys of a Python `Counter`/`set` built from the list. -/
def distinctsAux : List α → List α → List α
  | _, [] => []
  | seen, x :: xs =>
    if x ∈ seen then distinctsAux seen xs else x :: distinctsAux (x :: seen) xs

/-- Distinct elements of a list in first-occurrence order. -/
def distincts (l : List α) : List α := distinctsAux [] l

/-- Scan candidates (in first-occurrence order) keeping the one with the
strictly largest count: the element `Counter(l).most_common(1)[0][0]`
returns, since `most_common` sorts stably by descending count over keys in
insertion order. -/
def pickBestAux (l : List α) : List α → Option α → Option α
  | [], best => best
  | v :: vs, best =>
    match best with
    | none => pickBestAux l vs (some v)
    | some b =>
      if l.count b < l.count v then pickBestAux l vs (some v)
      else pickBestAux l vs (some b)

/-- `Counter(l).most_common(1)[0][0]`: the most frequent element of `l`,
ties broken by first occurrence; `none` models the IndexError raised on an
empty list. -/
def mostCommon (l : List α) : Option α := pickBestAux l (distincts l) none

/-- `_gini`: `1 - sum((count / n) ** 2 for count in Counter(y).values())`.
On an empty list the Python sum has no terms, so the result is `1`. -/
def gini (y : List α) : ℚ :=
  1 - ((distincts y).map (fun v => ((y.count v : ℚ) / (y.length : ℚ)) ^ 2)).sum

/-- `list.index(x)`: index of the first element equal to `x` (callers only
use it on members, so the out-of-range value for absent elements is never
hit). -/
def pyIndex : List Sample → Sample → ℕ
  | [], _ => 0
  | z :: zs, x => if z = x then 0 else pyIndex zs x + 1

/-- The routing comparison of `_split_dataset` / `_predict_sample`:
`val <= threshold` when `isinstance(threshold, (int, float))`, otherwise
`val == threshold`.  Comparing a non-number with `<=` against a number
raises TypeError in Python, modelled by `none`. -/
def pyCompare (v thr : Value) : Option Bool :=
  match thr with
  | .num t =>
    match v with
    | .num a => some (decide (a ≤ t))
    | _ => none
  | _ => some (decide (v = thr))

/-- `_split_dataset`: iterate over `zip(X, y)` (truncating at the shorter
list), skip rows whose value at `fi` is `None`, and route the rest with
`pyCompare`.  `none` models an IndexError (row shorter than `fi + 1`) or a
TypeError from the comparison. -/
def splitDataset (X : List Sample) (y : List α) (fi : ℕ) (thr : Value) :
    Option (List Sample × List α × List Sample × List α) :=
  match X, y with
  | x :: xs, yi :: ys =>
    (match x.get? fi with
     | none => none
     | some v =>
       if v = Value.missing then splitDataset xs ys fi thr
       else
         match pyCompare v thr with
         | none => none
         | some goLeft =>
           match splitDataset xs ys fi thr with
           | none => none
           | some (Xl, yl, Xr, yr) =>
             if goLeft then some (x :: Xl, yi :: yl, Xr, yr)
             else some (Xl, yl, x :: Xr, yi :: yr))
  | _, _ => some ([], [], [], [])

/-- `[x[feature_index] for x in X if x[feature_index] is not None]`. -/
def collectValues (X : List Sample) (fi : ℕ) : Option (List Value) :=
  match X with
  | [] => some []
  | x :: rest =>
    match x.get? fi with
    | none => none
    | some v =>
      match collectValues rest fi with
      | none => none
      | some vs => some (if v = Value.missing then vs else v :: vs)

def Value.isNum : Value → Bool
  | .num _ => true
  | _ => false

def Value.toNum : Value → Option ℚ
  | .num q => some q
  | _ => none

/-- Insert into a sorted list of rationals (used to model `sorted`). -/
def insertSorted (q : ℚ) : List ℚ → List ℚ
  | [] => [q]
  | x :: xs => if q ≤ x then q :: x :: xs else x :: insertSorted q xs

/-- `sorted` on a list of numbers. -/
def sortQs : List ℚ → List ℚ
  | [] => []
  | x :: xs => insertSorted x (sortQs xs)

/-- Midpoints of consecutive elements:
`[(v[i] + v[i+1]) / 2 for i in range(len(v) - 1)]`. -/
def midpoints : List ℚ → List ℚ
  | a :: b :: rest => (a + b) / 2 :: midpoints (b :: rest)
  | _ => []

/-- Candidate thresholds of `_best_split` for one feature column: midpoints
of the sorted distinct values when every observed value is a number, and
the distinct observed values themselves otherwise.  (The Python code
iterates over a `set`; its unspecified iteration order is modelled as
first-occurrence order.) -/
def thresholdsFor (values : List Value) : List Value :=
  let u := distincts values
  if u.all Value.isNum then (midpoints (sortQs (u.filterMap Value.toNum))).map Value.num
  else u

/-- A usable split as recorded by `_best_split`:
`(best_feature, best_threshold, best_splits)`. -/
structure FoundSplit (α : Type) where
  fi : ℕ
  thr : Value
  Xl : List Sample
  yl : List α
  Xr : List Sample
  yr : List α
deriving DecidableEq

/-- The running best of `_best_split`: `best_gain` together with the
feature/threshold/splits data, which the Python loop always updates as a
unit. -/
structure BestSplitResult (α : Type) where
  gain : ℚ
  found : Option (FoundSplit α)

instance [DecidableEq α] : DecidableEq (BestSplitResult α) := fun a b =>
  decidable_of_iff (a.gain = b.gain ∧ a.found = b.found)
    (by cases a; cases b; simp)

/-- The inner threshold loop of `_best_split` for one feature. -/
def evalCandidates (X : List Sample) (y : List α) (base : ℚ) (fi : ℕ) :
    List Value → BestSplitResult α → Option (BestSplitResult α)
  | [], best => some best
  | thr :: rest, best =>
    match splitDataset X y fi thr with
    | none => none
    | some (Xl, yl, Xr, yr) =>
      if yl.length = 0 ∨ yr.length = 0 then evalCandidates X y base fi rest best
      else
        let n : ℚ := (yl.length : ℚ) + (yr.length : ℚ)
        let weighted := ((yl.length : ℚ) / n) * gini yl + ((yr.length : ℚ) / n) * gini yr
        let gain := base - weighted
        if best.gain < gain then
          evalCandidates X y base fi rest ⟨gain, some ⟨fi, thr, Xl, yl, Xr, yr⟩⟩
        else evalCandidates X y base fi rest best

/-- The outer feature loop of `_best_split`. -/
def evalFeatures (X : List Sample) (y : List α) (base : ℚ) :
    List ℕ → BestSplitResult α → Option (BestSplitResult α)
  | [], best => some best
  | fi :: rest, best =>
    match collectValues X fi with
    | none => none
    | some values =>
      match evalCandidates X y base fi (thresholdsFor values) best with
      | none => none
      | some best2 => evalFeatures X y base rest best2

/-- `_best_split`: `none` models the IndexError of `len(X[0])` on an empty
sample list, or any exception raised while scanning candidates. -/
def bestSplit (X : List Sample) (y : List α) : Option (BestSplitResult α) :=
  match X with
  | [] => none
  | x0 :: _ => evalFeatures X y (gini y) (List.range x0.length) ⟨0, none⟩

/-- The stopping test of `_build_tree`:
`(max_depth is not None and depth >= max_depth) or num_labels == 1 or
num_samples < min_samples_split`. -/
def stopCheck (md : Option ℕ) (mss : ℕ) (numLabels numSamples depth : ℕ) : Bool :=
  (match md with
   | some d => decide (d ≤ depth)
   | none => false)
    || decide (numLabels = 1) || decide (numSamples < mss)

/-- `self.feature_names[feature_index] if self.feature_names else None`:
an absent or empty (falsy) name list yields `None`; a short one raises
IndexError. -/
def featureNameAt (fns : Option (List String)) (fi : ℕ) : Option (Option String) :=
  match fns with
  | none => some none
  | some [] => some none
  | some (n0 :: rest) =>
    match (n0 :: rest).get? fi with
    | some nm => some (some nm)
    | none => none

/-- `_build_tree` with explicit fuel.  The recursion of the source
terminates because both partitions of a usable split are non-empty and
omit each other, so `buildTree` below supplies `y.length + 1` fuel;
`buildTreeF_fuel_irrel` shows any fuel beyond `y.length` gives the same
result, i.e. the fuel never runs out. -/
def buildTreeF : ℕ → Option ℕ → ℕ → Option (List String) → List Sample → List α → ℕ →
    Option (Tree α)
  | 0, _, _, _, _, _, _ => none
  | fuel + 1, md, mss, fns, X, y, depth =>
    if stopCheck md mss (distincts y).length y.length depth then
      (mostCommon y).map Tree.leaf
    else
      match bestSplit X y with
      | none => none
      | some b =>
        match b.found with
        | none => (mostCommon y).map Tree.leaf
        | some ⟨fi, thr, Xl, yl, Xr, yr⟩ =>
          if b.gain = 0 then (mostCommon y).map Tree.leaf
          else
            match buildTreeF fuel md mss fns Xl yl (depth + 1),
                buildTreeF fuel md mss fns Xr yr (depth + 1),
                featureNameAt fns fi with
            | some l, some r, some nm => some (Tree.node fi nm thr l r)
            | _, _, _ => none

/-- `_build_tree(X, y, depth)`. -/
def buildTree (md : Option ℕ) (mss : ℕ) (fns : Option (List String))
    (X : List Sample) (y : List α) (depth : ℕ) : Option (Tree α) :=
  buildTreeF (y.length + 1) md mss fns X y depth

/-- `_predict_sample`: leaf label; on a missing value the majority of the
two branch predictions via `Counter`; otherwise route with `pyCompare`. -/
def predictSample : Tree α → Sample → Option α
  | .leaf c, _ => some c
  | .node fi _ thr l r, s =>
    match s.get? fi with
    | none => none
    | some Value.missing =>
      match predictSample l s, predictSample r s with
      | some lp, some rp => mostCommon [lp, rp]
      | _, _ => none
    | some v =>
      match pyCompare v thr with
      | none => none
      | some true => predictSample l s
      | some false => predictSample r s

/-- `[self._predict_sample(t, x) for x in X]`. -/
def predsFor (t : Tree α) : List Sample → Option (List α)
  | [] => some []
  | x :: rest =>
    match predictSample t x, predsFor t rest with
    | some p, some ps => some (p :: ps)
    | _, _ => none

/-- `sum(yp != yt for yp, yt in zip(preds, truth))`. -/
def countMismatch : List α → List α → ℕ
  | p :: ps, t :: ts => (if p = t then 0 else 1) + countMismatch ps ts
  | _, _ => 0

/-- Validation mismatches of the (sub)tree `t` over the whole validation
set, exactly as `_prune` computes `error_before` / `error_after`. -/
def errCount (Xv : List Sample) (yv : List α) (t : Tree α) : Option ℕ :=
  (predsFor t Xv).map (fun ps => countMismatch ps yv)

/-- The `combined_labels` loop of `_prune`.  For each validation row with
a non-missing value at `fi` it appends `y_val[X_val.index(x)]` — the label
aligned with the *first* row equal to `x`.  When the node's threshold is a
number the loop evaluates `val <= threshold` purely for control flow (both
branches append the same label), which raises TypeError when `val` is not
a number. -/
def combinedAux (Xv : List Sample) (yv : List α) (fi : ℕ) (thr : Value) :
    List Sample → Option (List α)
  | [] => some []
  | x :: rest =>
    match x.get? fi with
    | none => none
    | some v =>
      if v = Value.missing then combinedAux Xv yv fi thr rest
      else
        match thr, v with
        | Value.num _, Value.cat _ => none
        | _, _ =>
          match yv.get? (pyIndex Xv x) with
          | none => none
          | some lbl =>
            match combinedAux Xv yv fi thr rest with
            | none => none
            | some rest2 => some (lbl :: rest2)

def combinedLabels (Xv : List Sample) (yv : List α) (fi : ℕ) (thr : Value) :
    Option (List α) :=
  combinedAux Xv yv fi thr Xv

/-- The majority class a collapsed node receives in `_prune`: the most
common of `combined_labels` when non-empty, else the most common of the
whole validation label vector. -/
def pruneMajority (Xv : List Sample) (yv : List α) (fi : ℕ) (thr : Value) : Option α :=
  match combinedLabels Xv yv fi thr with
  | none => none
  | some [] => mostCommon yv
  | some (c :: cs) => mostCommon (c :: cs)

/-- `_prune`: post-order; when both (already pruned) children are leaves,
compare node-rooted validation error before and after collapsing to the
majority leaf and revert only if the error strictly increased.  In-place
mutation is modelled by returning the resulting subtree. -/
def prune (Xv : List Sample) (yv : List α) : Tree α → Option (Tree α)
  | .leaf c => some (.leaf c)
  | .node fi nm thr l r =>
    match prune Xv yv l, prune Xv yv r with
    | some l2, some r2 =>
      match l2, r2 with
      | .leaf a, .leaf b =>
        (match errCount Xv yv (.node fi nm thr (.leaf a) (.leaf b)) with
         | none => none
         | some eb =>
           match pruneMajority Xv yv fi thr with
           | none => none
           | some maj =>
             match errCount Xv yv (.leaf maj) with
             | none => none
             | some ea =>
               if eb < ea then some (.node fi nm thr (.leaf a) (.leaf b))
               else some (.leaf maj))
      | _, _ => some (.node fi nm thr l2 r2)
    | _, _ => none

/-- `fit`: build the tree from the training data at depth `0`, then prune
it when both validation arguments are supplied.  The classifier stores the
resulting tree; we return it. -/
def fitTree (md : Option ℕ) (mss : ℕ) (fns : Option (List String))
    (X : List Sample) (y : List α) (Xv : Option (List Sample))
    (yv : Option (List α)) : Option (Tree α) :=
  match buildTree md mss fns X y 0 with
  | none => none
  | some t =>
    match Xv, yv with
    | some xv, some yvl => prune xv yvl t
    | _, _ => some t

/-- `predict`: `[self._predict_sample(self.tree, sample) for sample in X]`.
The tree argument is `none` for a never-fitted classifier (`self.tree` is
the `None` set in `__init__`), in which case each subscripting of the
`None` tree raises, but an empty sample list performs no call at all. -/
def predictTop (tree : Option (Tree α)) : List Sample → Option (List α)
  | [] => some []
  | x :: rest =>
    match tree with
    | none => none
    | some t =>
      match predictSample t x, predictTop tree rest with
      | some p, some ps => some (p :: ps)
      | _, _ => none

/-- Depth of a tree, root at depth `0`. -/
def treeDepth : Tree α → ℕ
  | .leaf _ => 0
  | .node _ _ _ l r => 1 + max (treeDepth l) (treeDepth r)

/-- Modelled from the spec: the eligible validation labels for a collapsed
node — each validation row with a non-missing value at the node's feature
index contributes *its own* aligned label.  This is the reading of the
claim; the source instead looks the label up through `X_val.index(x)`. -/
def specEligibleLabels (Xv : List Sample) (yv : List α) (fi : ℕ) : List α :=
  (Xv.zip yv).filterMap fun p =>
    match p.1.get? fi with
    | some v => if v = Value.missing then none else some p.2
    | none => none

/-! ### Basic facts about `distincts` and `mostCommon` -/

theorem mem_distinctsAux {l seen : List α} {x : α} :
    x ∈ distinctsAux seen l ↔ x ∈ l ∧ x ∉ seen := by
  induction l generalizing seen with
  | nil => simp [distinctsAux]
  | cons a as ih =>
    simp only [distinctsAux]
    by_cases h : a ∈ seen
    · rw [if_pos h, ih]
      constructor
      · rintro ⟨hm, hs⟩; exact ⟨List.mem_cons_of_mem _ hm, hs⟩
      · rintro ⟨hm, hs⟩
        rcases List.mem_cons.mp hm with rfl | hm
        · exact absurd h hs
        · exact ⟨hm, hs⟩
    · rw [if_neg h]
      constructor
      · intro hm
        rcases List.mem_cons.mp hm with rfl | hm
        · exact ⟨List.mem_cons_self _ _, h⟩
        · rcases ih.mp hm with ⟨h1, h2⟩
          exact ⟨List.mem_cons_of_mem _ h1,
            fun hx => h2 (List.mem_cons_of_mem _ hx)⟩
      · rintro ⟨hm, hs⟩
        rcases List.mem_cons.mp hm with rfl | hm
        · exact List.mem_cons_self _ _
        · by_cases hxa : x = a
          · subst hxa; exact List.mem_cons_self _ _
          · exact List.mem_cons_of_mem _ (ih.mpr ⟨hm, by
              intro hx
              rcases List.mem_cons.mp hx with h1 | h1
              · exact hxa h1
              · exact hs h1⟩)

theorem mem_distincts {l : List α} {x : α} : x ∈ distincts l ↔ x ∈ l := by
  simp [distincts, mem_distinctsAux]

theorem distinctsAux_nodup (seen l : List α) : (distinctsAux seen l).Nodup := by
  induction l generalizing seen with
  | nil => simp [distinctsAux]
  | cons a as ih =>
    simp only [distinctsAux]
    by_cases h : a ∈ seen
    · rw [if_pos h]; exact ih seen
    · rw [if_neg h]
      refine List.nodup_cons.mpr ⟨fun hmem => ?_, ih (a :: seen)⟩
      exact (mem_distinctsAux.mp hmem).2 (List.mem_cons_self _ _)

theorem distincts_nodup (l : List α) : (distincts l).Nodup := distinctsAux_nodup [] l

theorem distincts_toFinset (l : List α) : (distincts l).toFinset = l.toFinset := by
  ext x; simp [mem_distincts]

theorem distincts_nil_iff {l : List α} : distincts l = [] ↔ l = [] := by
  constructor
  · intro h
    cases l with
    | nil => rfl
    | cons a as =>
      have : a ∈ distincts (a :: as) := mem_distincts.mpr (List.mem_cons_self _ _)
      rw [h] at this
      exact absurd this (List.not_mem_nil _)
  · rintro rfl; rfl

theorem all_eq_of_distincts_singleton {y : List α} {v : α}
    (h : distincts y = [v]) : ∀ x ∈ y, x = v := by
  intro x hx
  have : x ∈ distincts y := mem_distincts.mpr hx
  rw [h] at this
  simpa using this

/-- `Counter([a, b]).most_common(1)[0][0]` is always `a`: each candidate
occurs at most twice and the tie at equal counts keeps the first key. -/
theorem mostCommon_pair (a b : α) : mostCommon [a, b] = some a := by
  by_cases h : b = a
  · subst h
    simp [mostCommon, distincts, distinctsAux, pickBestAux]
  · have hba : ¬(a = b) := fun hh => h hh.symm
    simp [mostCommon, distincts, distinctsAux, h, pickBestAux, hba,
      List.count_cons, List.count_nil]

/-! ### The Gini impurity: exact formula and bounds (claim C7) -/

theorem distincts_map_sum_eq_finset (l : List α) (f : α → ℚ) :
    ((distincts l).map f).sum = ∑ v ∈ l.toFinset, f v := by
  rw [← List.sum_toFinset f (distincts_nodup l), distincts_toFinset]

theorem count_cast_sum_eq_length (y : List α) :
    ∑ v ∈ y.toFinset, (y.count v : ℚ) = (y.length : ℚ) := by
  rw [← Nat.cast_sum]
  exact_mod_cast congrArg (Nat.cast (R := ℚ)) (List.sum_toFinset_count_eq_length y)

theorem gini_eq_finset (y : List α) :
    gini y = 1 - ∑ v ∈ y.toFinset, ((y.count v : ℚ) / (y.length : ℚ)) ^ 2 := by
  unfold gini
  rw [distincts_map_sum_eq_finset]


theorem gini_nonneg {y : List α} (h : y ≠ []) : 0 ≤ gini y := by
  have hn : (0 : ℚ) < (y.length : ℚ) := by
    exact_mod_cast List.length_pos.mpr h
  rw [gini_eq_finset]
  have hsum : ∑ v ∈ y.toFinset, ((y.count v : ℚ) / (y.length : ℚ)) = 1 := by
    rw [← Finset.sum_div, count_cast_sum_eq_length]
    exact div_self (ne_of_gt hn)
  have hle : ∑ v ∈ y.toFinset, ((y.count v : ℚ) / (y.length : ℚ)) ^ 2 ≤
      ∑ v ∈ y.toFinset, ((y.count v : ℚ) / (y.length : ℚ)) := by
    refine Finset.sum_le_sum fun v hv => ?_
    have h0 : (0 : ℚ) ≤ (y.count v : ℚ) / (y.length : ℚ) :=
      div_nonneg (by positivity) (le_of_lt hn)
    have h1 : (y.count v : ℚ) / (y.length : ℚ) ≤ 1 := by
      rw [div_le_one hn]
      exact_mod_cast List.count_le_length v y
    calc ((y.count v : ℚ) / (y.length : ℚ)) ^ 2
        = ((y.count v : ℚ) / (y.length : ℚ)) * ((y.count v : ℚ) / (y.length : ℚ)) := sq _
      _ ≤ 1 * ((y.count v : ℚ) / (y.length : ℚ)) := by
          exact mul_le_mul_of_nonneg_right h1 h0
      _ = _ := one_mul _
  linarith [hle, hsum]

theorem gini_le_one_sub {y : List α} (h : y ≠ []) :
    gini y ≤ 1 - 1 / ((distincts y).length : ℚ) := by
  have hn : (0 : ℚ) < (y.length : ℚ) := by
    exact_mod_cast List.length_pos.mpr h
  have hcard : y.toFinset.card = (distincts y).length := by
    rw [← distincts_toFinset, List.toFinset_card_of_nodup (distincts_nodup y)]
  have hk : 0 < y.toFinset.card := by
    rcases List.exists_mem_of_ne_nil y h with ⟨v, hv⟩
    exact Finset.card_pos.mpr ⟨v, List.mem_toFinset.mpr hv⟩
  have hkq : (0 : ℚ) < (y.toFinset.card : ℚ) := by exact_mod_cast hk
  have hsum : ∑ v ∈ y.toFinset, ((y.count v : ℚ) / (y.length : ℚ)) = 1 := by
    rw [← Finset.sum_div, count_cast_sum_eq_length]
    exact div_self (ne_of_gt hn)
  have hcs := sq_sum_le_card_mul_sum_sq (s := y.toFinset)
    (f := fun v => (y.count v : ℚ) / (y.length : ℚ))
  rw [hsum, one_pow] at hcs
  have hlow : 1 / (y.toFinset.card : ℚ) ≤
      ∑ v ∈ y.toFinset, ((y.count v : ℚ) / (y.length : ℚ)) ^ 2 := by
    rw [div_le_iff₀ hkq, mul_comm]
    exact hcs
  rw [gini_eq_finset, ← hcard]
  linarith [hlow]

theorem gini_zero_of_single {y : List α} (h1 : (distincts y).length = 1) :
    gini y = 0 := by
  rcases List.length_eq_one.mp h1 with ⟨v, hv⟩
  have hall : ∀ x ∈ y, x = v := all_eq_of_distincts_singleton hv
  have hne : y ≠ [] := by
    intro hnil
    rw [hnil] at hv
    exact absurd hv (by simp [distincts, distinctsAux])
  have hn : (0 : ℚ) < (y.length : ℚ) := by
    exact_mod_cast List.length_pos.mpr hne
  have hcount : y.count v = y.length := by
    rw [List.count_eq_length]
    intro b hb
    simpa using (hall b hb).symm
  unfold gini
  rw [hv]
  simp only [List.map_cons, List.map_nil, List.sum_cons, List.sum_nil, add_zero, hcount]
  rw [div_self (ne_of_gt hn)]
  norm_num


theorem buildTreeF_depth {dmax mss : ℕ} {fns : Option (List String)} :
    ∀ (fuel : ℕ) (X : List Sample) (y : List α) (d : ℕ) (t : Tree α),
    buildTreeF fuel (some dmax) mss fns X y d = some t → treeDepth t ≤ dmax - d := by
  intro fuel
  induction fuel with
  | zero => intro X y d t h; simp [buildTreeF] at h
  | succ f ih =>
    intro X y d t h
    rw [buildTreeF] at h
    split at h
    · rcases Option.map_eq_some'.mp h with ⟨c, _, rfl⟩
      simp [treeDepth]
    · rename_i hstop
      split at h
      · exact absurd h (by simp)
      · rename_i b hbs
        split at h
        · rcases Option.map_eq_some'.mp h with ⟨c, _, rfl⟩
          simp [treeDepth]
        · rename_i fs ffi fthr fXl fyl fXr fyr hf
          split at h
          · rcases Option.map_eq_some'.mp h with ⟨c, _, rfl⟩
            simp [treeDepth]
          · split at h
            · rename_i lt rt nm hbl hbr hnm
              have ht : t = Tree.node ffi nm fthr lt rt :=
                (Option.some_inj.mp h).symm
              subst ht
              have hd : d < dmax := by
                have hx : stopCheck (some dmax) mss (distincts y).length y.length d = false :=
                  Bool.not_eq_true _ ▸ by simpa using hstop
                simp only [stopCheck, Bool.or_eq_false_iff,
                  decide_eq_false_iff_not] at hx
                omega
              have h1 := ih fXl fyl (d + 1) lt hbl
              have h2 := ih fXr fyr (d + 1) rt hbr
              simp only [treeDepth]
              omega
            · exact absurd h (by simp)


/-! ### Facts about `splitDataset` and the best-split search (claim C9) -/

theorem splitDataset_lengths {X : List Sample} {y : List α} {fi : ℕ} {thr : Value}
    {Xl yl Xr yr} (h : splitDataset X y fi thr = some (Xl, yl, Xr, yr)) :
    yl.length + yr.length ≤ y.length ∧ Xl.length = yl.length ∧ Xr.length = yr.length := by
  induction X generalizing y Xl yl Xr yr with
  | nil =>
    cases y <;> simp [splitDataset] at h <;>
      rcases h with ⟨rfl, rfl, rfl, rfl⟩ <;> simp
  | cons x xs ih =>
    cases y with
    | nil =>
      simp [splitDataset] at h
      rcases h with ⟨rfl, rfl, rfl, rfl⟩; simp
    | cons yi ys =>
      rw [splitDataset] at h
      split at h
      · exact absurd h (by simp)
      · rename_i v hv
        split at h
        · have := ih h
          simp only [List.length_cons]
          omega
        · split at h
          · exact absurd h (by simp)
          · rename_i goLeft hcmp
            split at h
            · exact absurd h (by simp)
            · rename_i Xl2 yl2 Xr2 yr2 hrec
              have hih := ih hrec
              split at h <;>
                · rcases (Option.some_inj.mp h) with ⟨rfl, rfl, rfl, rfl⟩
                  simp only [List.length_cons] at hih ⊢
                  omega

theorem splitDataset_nomissing {X : List Sample} {y : List α} {fi : ℕ} {thr : Value}
    {Xl yl Xr yr} (h : splitDataset X y fi thr = some (Xl, yl, Xr, yr)) :
    ∀ x ∈ Xl ++ Xr, ∃ v, x.get? fi = some v ∧ v ≠ Value.missing := by
  induction X generalizing y Xl yl Xr yr with
  | nil =>
    cases y <;> simp [splitDataset] at h <;>
      rcases h with ⟨rfl, rfl, rfl, rfl⟩ <;> simp
  | cons x xs ih =>
    cases y with
    | nil =>
      simp [splitDataset] at h
      rcases h with ⟨rfl, rfl, rfl, rfl⟩; simp
    | cons yi ys =>
      rw [splitDataset] at h
      split at h
      · exact absurd h (by simp)
      · rename_i v hv
        split at h
        · exact ih h
        · rename_i hvm
          split at h
          · exact absurd h (by simp)
          · rename_i goLeft hcmp
            split at h
            · exact absurd h (by simp)
            · rename_i Xl2 yl2 Xr2 yr2 hrec
              have hih := ih hrec
              split at h
              · rcases (Option.some_inj.mp h) with ⟨rfl, rfl, rfl, rfl⟩
                intro z hz
                rcases List.mem_append.mp hz with h1 | h1
                · rcases List.mem_cons.mp h1 with rfl | h1
                  · exact ⟨v, hv, hvm⟩
                  · exact hih z (List.mem_append.mpr (Or.inl h1))
                · exact hih z (List.mem_append.mpr (Or.inr h1))
              · rcases (Option.some_inj.mp h) with ⟨rfl, rfl, rfl, rfl⟩
                intro z hz
                rcases List.mem_append.mp hz with h1 | h1
                · exact hih z (List.mem_append.mpr (Or.inl h1))
                · rcases List.mem_cons.mp h1 with rfl | h1
                  · exact ⟨v, hv, hvm⟩
                  · exact hih z (List.mem_append.mpr (Or.inr h1))


/-- The invariant of the running best during `_best_split`: any recorded
split has two non-empty partitions, both strictly smaller than the label
list at the node, and neither contains a row with a missing (or absent)
value at the split feature. -/
def GoodFound (y : List α) (fnd : Option (FoundSplit α)) : Prop :=
  ∀ fs : FoundSplit α, fnd = some fs →
    fs.yl ≠ [] ∧ fs.yr ≠ [] ∧ fs.yl.length < y.length ∧ fs.yr.length < y.length ∧
    (∀ x ∈ fs.Xl ++ fs.Xr, ∃ v, x.get? fs.fi = some v ∧ v ≠ Value.missing)

theorem evalCandidates_good {X : List Sample} {y : List α} {base : ℚ} {fi : ℕ}
    {thrs : List Value} {best best2 : BestSplitResult α}
    (hg : GoodFound y best.found)
    (h : evalCandidates X y base fi thrs best = some best2) :
    GoodFound y best2.found := by
  induction thrs generalizing best with
  | nil =>
    rw [evalCandidates] at h
    rwa [← Option.some_inj.mp h]
  | cons thr rest ih =>
    rw [evalCandidates] at h
    split at h
    · exact absurd h (by simp)
    · rename_i parts Xl yl Xr yr hsplit
      split at h
      · exact ih hg h
      · rename_i hne
        simp only [] at h
        split at h
        · refine ih ?_ h
          intro fs hfs
          have hfs2 := Option.some_inj.mp hfs.symm
          subst hfs2
          dsimp only
          push_neg at hne
          have hlen := splitDataset_lengths hsplit
          have hmiss := splitDataset_nomissing hsplit
          refine ⟨?_, ?_, ?_, ?_, hmiss⟩
          · exact List.length_pos.mp (by omega)
          · exact List.length_pos.mp (by omega)
          · omega
          · omega
        · exact ih hg h


theorem evalFeatures_good {X : List Sample} {y : List α} {base : ℚ}
    {fis : List ℕ} {best best2 : BestSplitResult α}
    (hg : GoodFound y best.found)
    (h : evalFeatures X y base fis best = some best2) :
    GoodFound y best2.found := by
  induction fis generalizing best with
  | nil =>
    rw [evalFeatures] at h
    rwa [← Option.some_inj.mp h]
  | cons fi rest ih =>
    rw [evalFeatures] at h
    split at h
    · exact absurd h (by simp)
    · rename_i values hvals
      split at h
      · exact absurd h (by simp)
      · rename_i bmid hmid
        exact ih (evalCandidates_good hg hmid) h

/-- Claim C9, key part: every split recorded by `_best_split` has two
non-empty partitions that are strictly smaller than the node's sample set
and contain no row with a missing value at the split feature. -/
theorem bestSplit_good {X : List Sample} {y : List α} {b : BestSplitResult α}
    (h : bestSplit X y = some b) : GoodFound y b.found := by
  unfold bestSplit at h
  split at h
  · exact absurd h (by simp)
  · refine evalFeatures_good ?_ h
    intro fs hfs
    simp at hfs

theorem buildTreeF_fuel_irrel {md : Option ℕ} {mss : ℕ} {fns : Option (List String)} :
    ∀ (f1 f2 : ℕ) (X : List Sample) (y : List α) (d : ℕ),
    y.length < f1 → y.length < f2 →
    buildTreeF f1 md mss fns X y d = buildTreeF f2 md mss fns X y d := by
  intro f1
  induction f1 with
  | zero => intro f2 X y d h1; omega
  | succ f ih =>
    intro f2 X y d h1 h2
    cases f2 with
    | zero => omega
    | succ g =>
      rw [buildTreeF]
      conv_rhs => rw [buildTreeF]
      cases hstop : stopCheck md mss (distincts y).length y.length d
      · simp only [Bool.false_eq_true, if_false]
        cases hbs : bestSplit X y with
        | none => rfl
        | some b =>
          dsimp only
          cases hf : b.found with
          | none => rfl
          | some fs =>
            cases fs with
            | mk ffi fthr fXl fyl fXr fyr =>
              dsimp only
              by_cases hg : b.gain = 0
              · rw [if_pos hg, if_pos hg]
              · rw [if_neg hg, if_neg hg]
                have hgood := bestSplit_good hbs
                have hfs := hgood _ hf
                dsimp only at hfs
                have hl : fyl.length < y.length := hfs.2.2.1
                have hr : fyr.length < y.length := hfs.2.2.2.1
                rw [ih g fXl fyl (d + 1) (by omega) (by omega),
                  ih g fXr fyr (d + 1) (by omega) (by omega)]
      · simp only [if_pos]


/-! ### The pruning majority computation (claim C5) -/

theorem pyIndex_append {pre rest : List Sample} {x : Sample} (h : x ∉ pre) :
    pyIndex (pre ++ x :: rest) x = pre.length := by
  induction pre with
  | nil => simp [pyIndex]
  | cons p ps ih =>
    have hp : ¬(p = x) := fun he => h (he ▸ List.mem_cons_self _ _)
    simp only [List.cons_append, pyIndex, if_neg hp, List.length_cons]
    exact congrArg (· + 1) (ih (fun hm => h (List.mem_cons_of_mem _ hm)))

theorem specEligibleLabels_nil_right (X : List Sample) (fi : ℕ) :
    specEligibleLabels X ([] : List α) fi = [] := by
  simp [specEligibleLabels]

theorem specEligibleLabels_cons_missing {x : Sample} {rest : List Sample}
    {ys : List α} {fi : ℕ} (hv : x.get? fi = some Value.missing) :
    specEligibleLabels (x :: rest) ys fi = specEligibleLabels rest ys.tail fi := by
  cases ys with
  | nil => simp [specEligibleLabels_nil_right]
  | cons l ls =>
    have hv2 : x[fi]? = some Value.missing := by
      rw [← List.get?_eq_getElem?]; exact hv
    simp [specEligibleLabels, hv2]

theorem specEligibleLabels_cons_some {x : Sample} {rest : List Sample}
    {l : α} {ls : List α} {fi : ℕ} {v : Value} (hv : x.get? fi = some v)
    (hvm : v ≠ Value.missing) :
    specEligibleLabels (x :: rest) (l :: ls) fi = l :: specEligibleLabels rest ls fi := by
  have hv2 : x[fi]? = some v := by
    rw [← List.get?_eq_getElem?]; exact hv
  simp [specEligibleLabels, hv2, hvm]

theorem combinedAux_spec {Xv : List Sample} {yv : List α} {fi : ℕ} {thr : Value}
    (hnd : Xv.Nodup) :
    ∀ (sfx pre : List Sample), Xv = pre ++ sfx →
    ∀ L, combinedAux Xv yv fi thr sfx = some L →
    L = specEligibleLabels sfx (yv.drop pre.length) fi := by
  intro sfx
  induction sfx with
  | nil =>
    intro pre _ L h
    rw [combinedAux] at h
    rw [← Option.some_inj.mp h]
    simp [specEligibleLabels]
  | cons x rest ih =>
    intro pre heq L h
    rw [combinedAux] at h
    split at h
    · exact absurd h (by simp)
    · rename_i v hv
      split at h
      · rename_i hvm
        subst hvm
        have hrec := ih (pre ++ [x]) (by simpa using heq) L h
        rw [hrec, specEligibleLabels_cons_missing hv]
        congr 1
        rw [List.length_append, List.length_singleton, ← List.drop_drop]
        cases List.drop pre.length yv <;> simp
      · rename_i hvm
        split at h
        · exact absurd h (by simp)
        · split at h
          · exact absurd h (by simp)
          · rename_i lbl hlbl
            split at h
            · exact absurd h (by simp)
            · rename_i rest2 hrest2
              have hx : x ∉ pre := by
                rw [heq] at hnd
                rcases List.nodup_append.mp hnd with ⟨_, _, hdisj⟩
                intro hmem
                exact hdisj hmem (List.mem_cons_self _ _)
              rw [heq, pyIndex_append hx] at hlbl
              have hlt : pre.length < yv.length := by
                by_contra hge
                rw [List.get?_eq_none.mpr (by omega)] at hlbl
                exact absurd hlbl (by simp)
              have hdrop : yv.drop pre.length =
                  lbl :: yv.drop (pre.length + 1) := by
                rw [List.drop_eq_getElem_cons hlt]
                congr 1
                have := List.get?_eq_getElem? yv pre.length
                rw [hlbl] at this
                have h2 := (List.getElem?_eq_some.mp this.symm)
                rcases h2 with ⟨hh, hval⟩
                exact hval
              have hrec := ih (pre ++ [x]) (by simpa using heq) rest2 hrest2
              rw [← Option.some_inj.mp h]
              rw [hdrop, specEligibleLabels_cons_some hv hvm]
              congr 1
              rw [hrec]
              congr 1
              simp

theorem combinedLabels_spec {Xv : List Sample} {yv : List α} {fi : ℕ} {thr : Value}
    {L : List α} (hnd : Xv.Nodup) (h : combinedLabels Xv yv fi thr = some L) :
    L = specEligibleLabels Xv yv fi := by
  have := combinedAux_spec hnd Xv [] rfl L h
  simpa using this

/-- When the pruner turns a both-leaf internal node into a leaf, the leaf
carries the majority label computed by `pruneMajority`. -/
theorem prune_collapse_label {Xv : List Sample} {yv : List α} {fi : ℕ}
    {nm : Option String} {thr : Value} {a b m : α}
    (hp : prune Xv yv (Tree.node fi nm thr (Tree.leaf a) (Tree.leaf b)) =
      some (Tree.leaf m)) :
    pruneMajority Xv yv fi thr = some m := by
  rw [prune] at hp
  simp only [prune] at hp
  split at hp
  · exact absurd hp (by simp)
  · rename_i eb heb
    split at hp
    · exact absurd hp (by simp)
    · rename_i maj hmaj
      split at hp
      · exact absurd hp (by simp)
      · rename_i ea hea
        split at hp
        · exact absurd hp (by simp)
        · rw [hmaj]
          have := Option.some_inj.mp hp
          rw [Tree.leaf.injEq] at this
          rw [this]

/-- Each keep-or-collapse decision of `_prune` never increases the
node-rooted mismatch count over the full validation set. -/
theorem prune_decision_error_le {Xv : List Sample} {yv : List α} {fi : ℕ}
    {nm : Option String} {thr : Value} {l r l2 r2 t2 : Tree α} {e e2 : ℕ}
    (hl : prune Xv yv l = some l2) (hr : prune Xv yv r = some r2)
    (hp : prune Xv yv (Tree.node fi nm thr l r) = some t2)
    (he : errCount Xv yv (Tree.node fi nm thr l2 r2) = some e)
    (he2 : errCount Xv yv t2 = some e2) : e2 ≤ e := by
  rw [prune, hl, hr] at hp
  cases l2 with
  | node lfi lnm lthr ll lr =>
    have ht : t2 = Tree.node fi nm thr (Tree.node lfi lnm lthr ll lr) r2 := by
      cases r2 <;> exact (Option.some_inj.mp hp).symm
    subst ht
    rw [he] at he2
    exact le_of_eq (Option.some_inj.mp he2).symm
  | leaf a =>
    cases r2 with
    | node rfi rnm rthr rl rr =>
      have ht : t2 = Tree.node fi nm thr (Tree.leaf a) (Tree.node rfi rnm rthr rl rr) :=
        (Option.some_inj.mp hp).symm
      subst ht
      rw [he] at he2
      exact le_of_eq (Option.some_inj.mp he2).symm
    | leaf b =>
      dsimp only at hp
      rw [he] at hp
      dsimp only at hp
      split at hp
      · exact absurd hp (by simp)
      · rename_i maj hmaj
        split at hp
        · exact absurd hp (by simp)
        · rename_i ea hea
          split at hp
          · rename_i hlt
            have ht : t2 = Tree.node fi nm thr (Tree.leaf a) (Tree.leaf b) :=
              (Option.some_inj.mp hp).symm
            subst ht
            rw [he] at he2
            exact le_of_eq (Option.some_inj.mp he2).symm
          · rename_i hnlt
            have ht : t2 = Tree.leaf maj := (Option.some_inj.mp hp).symm
            subst ht
            rw [hea] at he2
            have : ea = e2 := Option.some_inj.mp he2
            omega

/-! ### Pruning with an empty validation set (claim C4) -/

theorem prune_empty_none : ∀ (t : Tree α), (∀ c, t ≠ Tree.leaf c) →
    prune ([] : List Sample) ([] : List α) t = none := by
  intro t
  induction t with
  | leaf c => intro h; exact absurd rfl (h c)
  | node fi nm thr l r ihl ihr =>
    intro _
    cases l with
    | node lfi lnm lthr la lb =>
      rw [prune, ihl (fun c h => by cases h)]
    | leaf a =>
      cases r with
      | node rfi rnm rthr ra rb =>
        rw [prune, ihr (fun c h => by cases h)]
        rfl
      | leaf b => rfl

/-! ### Split semantics for mixed-type columns (claim C2) -/

theorem splitDataset_cat_routing {X : List Sample} {y : List α} {fi : ℕ}
    {c : String} {Xl yl Xr yr}
    (h : splitDataset X y fi (Value.cat c) = some (Xl, yl, Xr, yr)) :
    (∀ x ∈ Xl, x.get? fi = some (Value.cat c)) ∧
    (∀ x ∈ Xr, ∃ v, x.get? fi = some v ∧ v ≠ Value.missing ∧ v ≠ Value.cat c) := by
  induction X generalizing y Xl yl Xr yr with
  | nil =>
    cases y <;> simp [splitDataset] at h <;>
      rcases h with ⟨rfl, rfl, rfl, rfl⟩ <;> simp
  | cons x xs ih =>
    cases y with
    | nil =>
      simp [splitDataset] at h
      rcases h with ⟨rfl, rfl, rfl, rfl⟩; simp
    | cons yi ys =>
      rw [splitDataset] at h
      split at h
      · exact absurd h (by simp)
      · rename_i v hv
        split at h
        · exact ih h
        · rename_i hvm
          split at h
          · exact absurd h (by simp)
          · rename_i goLeft hcmp
            have hgl : goLeft = decide (v = Value.cat c) := by
              rw [show pyCompare v (Value.cat c) =
                some (decide (v = Value.cat c)) from rfl] at hcmp
              exact (Option.some_inj.mp hcmp).symm
            split at h
            · exact absurd h (by simp)
            · rename_i Xl2 yl2 Xr2 yr2 hrec
              have hih := ih hrec
              split at h
              · rename_i hgt
                rcases (Option.some_inj.mp h) with ⟨rfl, rfl, rfl, rfl⟩
                constructor
                · intro z hz
                  rcases List.mem_cons.mp hz with rfl | h1
                  · rw [hv]
                    congr 1
                    rw [hgl] at hgt
                    exact of_decide_eq_true hgt
                  · exact hih.1 z h1
                · exact hih.2
              · rename_i hgf
                rcases (Option.some_inj.mp h) with ⟨rfl, rfl, rfl, rfl⟩
                constructor
                · exact hih.1
                · intro z hz
                  rcases List.mem_cons.mp hz with rfl | h1
                  · refine ⟨v, hv, hvm, ?_⟩
                    rw [hgl] at hgf
                    intro hvc
                    exact hgf (by rw [hvc]; simp)
                  · exact hih.2 z h1

theorem splitDataset_num_crash {X : List Sample} {y : List α} {fi : ℕ} {t : ℚ} :
    ∀ {x : Sample} {yi : α} {s : String}, (x, yi) ∈ X.zip y →
    x.get? fi = some (Value.cat s) →
    splitDataset X y fi (Value.num t) = none := by
  induction X generalizing y with
  | nil => intro x yi s hmem; simp at hmem
  | cons x0 xs ih =>
    intro x yi s hmem hget
    cases y with
    | nil => simp at hmem
    | cons y0 ys =>
      rw [List.zip_cons_cons, List.mem_cons] at hmem
      rw [splitDataset]
      rcases hmem with heq | hmem
      · cases heq
        rw [hget]
        rfl
      · cases hx0 : x0.get? fi with
        | none => rfl
        | some v =>
          dsimp only
          by_cases hvm : v = Value.missing
          · rw [if_pos hvm]
            exact ih hmem hget
          · rw [if_neg hvm]
            cases v with
            | cat s2 => rfl
            | missing => exact absurd rfl hvm
            | num q =>
              have hrec := ih hmem hget
              rw [hrec]
              rfl

/-! ### No input validation in `fit` (claim C3) -/

theorem buildTree_empty_none (md : Option ℕ) (mss : ℕ) (fns : Option (List String)) :
    buildTree md mss fns ([] : List Sample) ([] : List α) 0 = none := by
  rw [buildTree, buildTreeF]
  split
  · rfl
  · rfl

theorem fitTree_empty_none (md : Option ℕ) (mss : ℕ) (fns : Option (List String)) :
    fitTree md mss fns ([] : List Sample) ([] : List α) none none = none := by
  rw [fitTree, buildTree_empty_none]

/-! ## Claim theorems -/

/-- Claim C6: for every training input and configured `max_depth`, the tree
returned by `_build_tree` invoked at depth `0` has every root-to-leaf path
of depth at most `max_depth`: no node of the tree lies deeper than
`max_depth`. -/
theorem c6_max_depth_bound {dmax mss : ℕ} {fns : Option (List String)}
    {X : List Sample} {y : List α} {t : Tree α}
    (h : buildTree (some dmax) mss fns X y 0 = some t) : treeDepth t ≤ dmax := by
  have := buildTreeF_depth (y.length + 1) X y 0 t h
  simpa using this

/-- Witness for C6 at a concrete two-sample training set with
`max_depth = 1`. -/
theorem c6_max_depth_bound_witness :
    buildTree (some 1) 2 none [[Value.num 0], [Value.num 1]] ["A", "B"] 0 =
      some (Tree.node 0 none (Value.num (1 / 2)) (Tree.leaf "A") (Tree.leaf "B")) ∧
    treeDepth (Tree.node 0 none (Value.num (1 / 2))
      (Tree.leaf "A") (Tree.leaf "B")) ≤ 1 := by
  have h : buildTree (some 1) 2 none [[Value.num 0], [Value.num 1]] ["A", "B"] 0 =
      some (Tree.node 0 none (Value.num (1 / 2)) (Tree.leaf "A") (Tree.leaf "B")) := by
    with_unfolding_all rfl
  exact ⟨h, c6_max_depth_bound h⟩

/-- Claim C7: for every non-empty label vector, `_gini` returns exactly
`1 − Σ pᵢ²` over the distinct classes, it returns `0` when there is a
single distinct label, and its value lies in `[0, 1 − 1/k]` for `k`
distinct labels. -/
theorem c7_gini_formula_and_bounds (y : List α) (h : y ≠ []) :
    gini y = 1 - ∑ v ∈ y.toFinset, ((y.count v : ℚ) / (y.length : ℚ)) ^ 2 ∧
    0 ≤ gini y ∧ gini y ≤ 1 - 1 / ((distincts y).length : ℚ) ∧
    ((distincts y).length = 1 → gini y = 0) :=
  ⟨gini_eq_finset y, gini_nonneg h, gini_le_one_sub h,
    fun h1 => gini_zero_of_single h1⟩

/-- Witness for C7 at the two-label vector `["A", "B"]`. -/
theorem c7_gini_formula_and_bounds_witness :
    (["A", "B"] : List String) ≠ [] ∧
    (0 ≤ gini ["A", "B"] ∧
      gini ["A", "B"] ≤ 1 - 1 / ((distincts ["A", "B"]).length : ℚ)) := by
  have h : (["A", "B"] : List String) ≠ [] := by simp
  have hc := c7_gini_formula_and_bounds ["A", "B"] h
  exact ⟨h, hc.2.1, hc.2.2.1⟩

/-- Claim C8: for every sample whose value at an internal node's feature
index is missing, `_predict_sample` returns the more frequent of the two
branch predictions (a two-element `Counter` majority), and since a tie
between two distinct labels keeps the first-inserted key, the result is
always the left-branch prediction; in particular when the branches agree
the agreed label is returned. -/
theorem c8_missing_value_prediction {fi : ℕ} {nm : Option String}
    {thr : Value} {l r : Tree α} {s : Sample} {lp rp : α}
    (hm : s.get? fi = some Value.missing)
    (hl : predictSample l s = some lp) (hr : predictSample r s = some rp) :
    predictSample (Tree.node fi nm thr l r) s = mostCommon [lp, rp] ∧
    predictSample (Tree.node fi nm thr l r) s = some lp := by
  have h1 : predictSample (Tree.node fi nm thr l r) s = mostCommon [lp, rp] := by
    rw [predictSample, hm, hl, hr]
  exact ⟨h1, h1.trans (mostCommon_pair lp rp)⟩

/-- Witness for C8 at a sample with a missing root value and two distinct
leaf children. -/
theorem c8_missing_value_prediction_witness :
    ([Value.missing] : Sample).get? 0 = some Value.missing ∧
    predictSample (Tree.node 0 none (Value.num 0)
      (Tree.leaf "L") (Tree.leaf "R")) [Value.missing] = some "L" := by
  have hm : ([Value.missing] : Sample).get? 0 = some Value.missing := rfl
  have hl : predictSample (Tree.leaf "L") [Value.missing] = some "L" := rfl
  have hr : predictSample (Tree.leaf "R") [Value.missing] = some "R" := rfl
  exact ⟨hm, (c8_missing_value_prediction hm hl hr).2⟩

/-- Claim C9: whenever `_build_tree` recurses, the recorded split has two
non-empty partitions which exclude every row with a missing value at the
split feature and are strictly smaller than the parent's label list, so
the recursion is well-founded; consequently the builder's result is
independent of any fuel bound beyond the sample count. -/
theorem c9_builder_terminates :
    (∀ (X : List Sample) (y : List α) (b : BestSplitResult α) (fs : FoundSplit α),
      bestSplit X y = some b → b.found = some fs →
      fs.yl ≠ [] ∧ fs.yr ≠ [] ∧
      fs.yl.length < y.length ∧ fs.yr.length < y.length ∧
      (∀ x ∈ fs.Xl ++ fs.Xr, ∃ v, x.get? fs.fi = some v ∧ v ≠ Value.missing)) ∧
    (∀ (f : ℕ) (md : Option ℕ) (mss : ℕ) (fns : Option (List String))
      (X : List Sample) (y : List α) (d : ℕ), y.length < f →
      buildTreeF f md mss fns X y d = buildTree (α := α) md mss fns X y d) := by
  constructor
  · intro X y b fs hb hf
    exact bestSplit_good hb fs hf
  · intro f md mss fns X y d hf
    exact buildTreeF_fuel_irrel f (y.length + 1) X y d hf (by omega)

/-- Witness for C9 at a concrete two-sample search and a concrete fuel
bound. -/
theorem c9_builder_terminates_witness :
    bestSplit [[Value.num 0], [Value.num 1]] ["A", "B"] =
      some ⟨1 / 2, some ⟨0, Value.num (1 / 2), [[Value.num 0]], ["A"],
        [[Value.num 1]], ["B"]⟩⟩ ∧
    (["A"] : List String).length < (["A", "B"] : List String).length ∧
    buildTreeF 3 none 2 none [[Value.num 0], [Value.num 1]] ["A", "B"] 0 =
      buildTree none 2 none [[Value.num 0], [Value.num 1]] ["A", "B"] 0 := by
  have hb : bestSplit [[Value.num 0], [Value.num 1]] ["A", "B"] =
      some ⟨1 / 2, some ⟨0, Value.num (1 / 2), [[Value.num 0]], ["A"],
        [[Value.num 1]], ["B"]⟩⟩ := by
    with_unfolding_all rfl
  refine ⟨hb, ?_, ?_⟩
  · exact ((c9_builder_terminates (α := String)).1 _ _ _ _ hb rfl).2.2.1
  · exact (c9_builder_terminates (α := String)).2 3 none 2 none _ _ 0 (by simp)


/-- Claim C1, counterexample: a tree fitted from a four-row training set
has zero whole-tree mismatches on this five-row validation set, yet
running the pruner (via `fit` with validation data) collapses it into the
single leaf `"B"`, whose whole-tree mismatch count is one — pruning
increased the validation error of whole-tree prediction. -/
theorem c1_counterexample :
    buildTree none 2 none
      [[Value.num 0, Value.num 0], [Value.num 0, Value.num 1],
        [Value.num 1, Value.num 0], [Value.num 1, Value.num 1]]
      ["A", "B", "B", "B"] 0 =
      some (Tree.node 0 none (Value.num (1 / 2))
        (Tree.node 1 none (Value.num (1 / 2)) (Tree.leaf "A") (Tree.leaf "B"))
        (Tree.leaf "B")) ∧
    fitTree none 2 none
      [[Value.num 0, Value.num 0], [Value.num 0, Value.num 1],
        [Value.num 1, Value.num 0], [Value.num 1, Value.num 1]]
      ["A", "B", "B", "B"]
      (some [[Value.num 0, Value.num 0], [Value.num 0, Value.num 1],
        [Value.num 1, Value.num 0], [Value.num 1, Value.num 0],
        [Value.num 1, Value.num 0]])
      (some ["A", "B", "B", "B", "B"]) = some (Tree.leaf "B") ∧
    errCount
      [[Value.num 0, Value.num 0], [Value.num 0, Value.num 1],
        [Value.num 1, Value.num 0], [Value.num 1, Value.num 0],
        [Value.num 1, Value.num 0]]
      ["A", "B", "B", "B", "B"]
      (Tree.node 0 none (Value.num (1 / 2))
        (Tree.node 1 none (Value.num (1 / 2)) (Tree.leaf "A") (Tree.leaf "B"))
        (Tree.leaf "B")) = some 0 ∧
    errCount
      [[Value.num 0, Value.num 0], [Value.num 0, Value.num 1],
        [Value.num 1, Value.num 0], [Value.num 1, Value.num 0],
        [Value.num 1, Value.num 0]]
      ["A", "B", "B", "B", "B"] (Tree.leaf "B") = some 1 := by
  refine ⟨?_, ?_, ?_, ?_⟩ <;> with_unfolding_all rfl

/-- Claim C1, amended: what `_prune` does guarantee is local — at every
keep-or-collapse decision, the mismatch count of predictions rooted at
that node over the full validation set does not increase; the whole-tree
validation error can still increase (see the counterexample). -/
theorem c1_prune_decision_monotone {Xv : List Sample} {yv : List α} {fi : ℕ}
    {nm : Option String} {thr : Value} {l r l2 r2 t2 : Tree α} {e e2 : ℕ}
    (hl : prune Xv yv l = some l2) (hr : prune Xv yv r = some r2)
    (hp : prune Xv yv (Tree.node fi nm thr l r) = some t2)
    (he : errCount Xv yv (Tree.node fi nm thr l2 r2) = some e)
    (he2 : errCount Xv yv t2 = some e2) : e2 ≤ e :=
  prune_decision_error_le hl hr hp he he2

/-- Witness for the amended C1 at a one-row validation set. -/
theorem c1_prune_decision_monotone_witness :
    prune [[Value.num 0]] ["A"] (Tree.leaf "A") = some (Tree.leaf "A") ∧
    prune [[Value.num 0]] ["A"]
      (Tree.node 0 none (Value.num 0) (Tree.leaf "A") (Tree.leaf "A")) =
      some (Tree.leaf "A") ∧
    errCount [[Value.num 0]] ["A"]
      (Tree.node 0 none (Value.num 0) (Tree.leaf "A") (Tree.leaf "A")) = some 0 ∧
    errCount [[Value.num 0]] ["A"] (Tree.leaf "A") = some 0 ∧ (0 : ℕ) ≤ 0 := by
  have h1 : prune [[Value.num 0]] ["A"] (Tree.leaf "A") = some (Tree.leaf "A") := by
    with_unfolding_all rfl
  have h2 : prune [[Value.num 0]] ["A"]
      (Tree.node 0 none (Value.num 0) (Tree.leaf "A") (Tree.leaf "A")) =
      some (Tree.leaf "A") := by
    with_unfolding_all rfl
  have h3 : errCount [[Value.num 0]] ["A"]
      (Tree.node 0 none (Value.num 0) (Tree.leaf "A") (Tree.leaf "A")) = some 0 := by
    with_unfolding_all rfl
  have h4 : errCount [[Value.num 0]] ["A"] (Tree.leaf "A") = some 0 := by
    with_unfolding_all rfl
  exact ⟨h1, h2, h3, h4, c1_prune_decision_monotone h1 h1 h2 h3 h4⟩

/-- Claim C2, counterexample: the column `[3, 5, 'a']` is classified as
categorical (its candidate thresholds are the distinct observed values,
including the number `3`), yet partitioning at the numeric candidate `3`
raises a TypeError (`'a' <= 3`) instead of routing rows by equality. -/
theorem c2_counterexample :
    collectValues [[Value.num 3], [Value.num 5], [Value.cat "a"]] 0 =
      some [Value.num 3, Value.num 5, Value.cat "a"] ∧
    thresholdsFor [Value.num 3, Value.num 5, Value.cat "a"] =
      [Value.num 3, Value.num 5, Value.cat "a"] ∧
    splitDataset [[Value.num 3], [Value.num 5], [Value.cat "a"]]
      ["x", "y", "z"] 0 (Value.num 3) = none := by
  refine ⟨?_, ?_, ?_⟩ <;> with_unfolding_all rfl

/-- Claim C2, amended: for a categorically-classified column the candidate
thresholds are exactly the distinct observed values; partitioning routes
by equality whenever the candidate is itself non-numeric; but for a
numeric candidate drawn from such a mixed column, `_split_dataset`
dispatches on the threshold's type, applies the continuous rule, and
raises a TypeError at the first non-numeric row, producing no partition. -/
theorem c2_amended_split_semantics :
    (∀ values : List Value, ¬((distincts values).all Value.isNum = true) →
      thresholdsFor values = distincts values) ∧
    (∀ (X : List Sample) (y : List α) (fi : ℕ) (c : String)
      (Xl : List Sample) (yl : List α) (Xr : List Sample) (yr : List α),
      splitDataset X y fi (Value.cat c) = some (Xl, yl, Xr, yr) →
      (∀ x ∈ Xl, x.get? fi = some (Value.cat c)) ∧
      (∀ x ∈ Xr, ∃ v, x.get? fi = some v ∧ v ≠ Value.missing ∧ v ≠ Value.cat c)) ∧
    (∀ (X : List Sample) (y : List α) (fi : ℕ) (t : ℚ) (x : Sample) (yi : α)
      (str : String), (x, yi) ∈ X.zip y → x.get? fi = some (Value.cat str) →
      splitDataset X y fi (Value.num t) = none) := by
  refine ⟨?_, ?_, ?_⟩
  · intro values h
    rw [thresholdsFor]
    simp only [if_neg h]
  · intro X y fi c Xl yl Xr yr h
    exact splitDataset_cat_routing h
  · intro X y fi t x yi str hmem hget
    exact splitDataset_num_crash hmem hget

/-- Witness for the amended C2 at concrete columns and splits. -/
theorem c2_amended_split_semantics_witness :
    (¬((distincts [Value.num 3, Value.cat "a"]).all Value.isNum = true)) ∧
    thresholdsFor [Value.num 3, Value.cat "a"] =
      distincts [Value.num 3, Value.cat "a"] ∧
    splitDataset [[Value.cat "a"], [Value.cat "b"]] ["x", "y"] 0 (Value.cat "a") =
      some ([[Value.cat "a"]], ["x"], [[Value.cat "b"]], ["y"]) ∧
    (∀ x ∈ [[Value.cat "a"]], x.get? 0 = some (Value.cat "a")) ∧
    ([Value.cat "a"], "x") ∈
      ([[Value.cat "a"]] : List Sample).zip (["x"] : List String) ∧
    splitDataset [[Value.cat "a"]] ["x"] 0 (Value.num 7) = none := by
  have h1 : ¬((distincts [Value.num 3, Value.cat "a"]).all Value.isNum = true) := by
    with_unfolding_all decide
  have h3 : splitDataset [[Value.cat "a"], [Value.cat "b"]] ["x", "y"] 0
      (Value.cat "a") = some ([[Value.cat "a"]], ["x"], [[Value.cat "b"]], ["y"]) := by
    with_unfolding_all rfl
  have h5 : ([Value.cat "a"], "x") ∈
      ([[Value.cat "a"]] : List Sample).zip (["x"] : List String) := by
    simp
  have h6 : ([Value.cat "a"] : Sample).get? 0 = some (Value.cat "a") := rfl
  refine ⟨h1, (c2_amended_split_semantics (α := String)).1 _ h1,
    h3, ((c2_amended_split_semantics (α := String)).2.1 _ _ _ _ _ _ _ _ h3).1,
    h5, (c2_amended_split_semantics (α := String)).2.2 _ _ _ 7 _ _ _ h5 h6⟩


/-- Claim C3, counterexample: calling `fit` with two samples but a single
label — a samples/labels length mismatch — raises nothing at all: `zip`
silently truncates, the stopping rule sees one sample, and fitting
succeeds with the leaf `"A"`, instead of an InvalidInput error at `fit`
entry. -/
theorem c3_counterexample :
    fitTree none 2 none [[Value.num 1], [Value.num 2]] ["A"] none none =
      some (Tree.leaf "A") := by
  with_unfolding_all rfl

/-- Claim C3, amended: `fit` performs no input validation.  A mismatched
samples/labels pair is silently truncated (see the counterexample), and an
empty sample table with an empty label vector fails only later, inside
tree construction, when the majority of an empty label vector is taken
(or the empty table is first subscripted) — for every configuration. -/
theorem c3_amended_no_fit_validation :
    ∀ (md : Option ℕ) (mss : ℕ) (fns : Option (List String)),
    fitTree md mss fns ([] : List Sample) ([] : List α) none none = none :=
  fun md mss fns => fitTree_empty_none md mss fns

/-- Claim C4, counterexample: pruning with an empty validation set is not
a no-op on a tree with an internal node whose children are both leaves —
the majority of the empty validation label vector raises an IndexError
(`Counter([]).most_common(1)[0]`), so `_prune` fails instead of leaving
the tree unchanged. -/
theorem c4_counterexample :
    prune ([] : List Sample) ([] : List String)
      (Tree.node 0 none (Value.num 1) (Tree.leaf "A") (Tree.leaf "B")) = none := by
  with_unfolding_all rfl

/-- Claim C4, amended: with an empty validation set, `_prune` is a no-op
exactly on single-leaf trees; on every tree containing an internal node it
raises an error while collapsing the deepest internal node, because both
mismatch counts are zero and the fallback majority of the empty validation
label vector fails. -/
theorem c4_amended_empty_validation :
    (∀ c : α, prune ([] : List Sample) ([] : List α) (Tree.leaf c) =
      some (Tree.leaf c)) ∧
    (∀ (fi : ℕ) (nm : Option String) (thr : Value) (l r : Tree α),
      prune ([] : List Sample) ([] : List α) (Tree.node fi nm thr l r) = none) := by
  constructor
  · intro c; rfl
  · intro fi nm thr l r
    exact prune_empty_none _ (fun c h => by cases h)

/-- Claim C5, counterexample: on the validation set `[[1], [1], [2]]` with
labels `["a", "b", "b"]` (duplicate rows with different labels), the
pruner collapses this both-leaf node to the leaf `"a"`: the duplicate row
`[1]` contributes `y_val[X_val.index([1])] = "a"` twice via first-occurrence
lookup.  Under the claim's reading — each eligible row contributes its own
aligned label — the eligible labels are `["a", "b", "b"]` and the majority
would be `"b"`. -/
theorem c5_counterexample :
    prune [[Value.num 1], [Value.num 1], [Value.num 2]] ["a", "b", "b"]
      (Tree.node 0 none (Value.num (3 / 2)) (Tree.leaf "a") (Tree.leaf "a")) =
      some (Tree.leaf "a") ∧
    specEligibleLabels [[Value.num 1], [Value.num 1], [Value.num 2]]
      ["a", "b", "b"] 0 = ["a", "b", "b"] ∧
    mostCommon ["a", "b", "b"] = some "b" ∧ "a" ≠ "b" := by
  refine ⟨?_, ?_, ?_, ?_⟩
  · with_unfolding_all rfl
  · with_unfolding_all rfl
  · with_unfolding_all rfl
  · simp

/-- Claim C5, amended: each eligible validation row (non-missing value at
the node's feature index) contributes the label aligned with the *first*
occurrence in `X_val` of a row equal to it.  When `X_val` has no duplicate
rows this coincides with the claim: the collapsed labels are exactly the
eligible rows' own aligned labels, the collapsed leaf carries their
first-encountered majority, and when no row is eligible the fallback is
the majority of the entire validation label vector. -/
theorem c5_amended_prune_majority {Xv : List Sample} {yv : List α} {fi : ℕ}
    {thr : Value} {L : List α} (hnd : Xv.Nodup)
    (hL : combinedLabels Xv yv fi thr = some L) :
    L = specEligibleLabels Xv yv fi ∧
    pruneMajority Xv yv fi thr =
      (if specEligibleLabels Xv yv fi = [] then mostCommon yv
        else mostCommon (specEligibleLabels Xv yv fi)) ∧
    (∀ (nm : Option String) (a b m : α),
      prune Xv yv (Tree.node fi nm thr (Tree.leaf a) (Tree.leaf b)) =
        some (Tree.leaf m) → pruneMajority Xv yv fi thr = some m) := by
  have hspec := combinedLabels_spec hnd hL
  refine ⟨hspec, ?_, fun nm a b m hp => prune_collapse_label hp⟩
  rw [pruneMajority, hL]
  cases L with
  | nil => rw [if_pos hspec.symm]
  | cons c cs =>
    rw [if_neg (by rw [← hspec]; simp), ← hspec]

/-- Witness for the amended C5 at a duplicate-free validation set. -/
theorem c5_amended_prune_majority_witness :
    ([[Value.num 1]] : List Sample).Nodup ∧
    combinedLabels [[Value.num 1]] ["a"] 0 (Value.num 0) = some ["a"] ∧
    (["a"] : List String) = specEligibleLabels [[Value.num 1]] ["a"] 0 ∧
    pruneMajority [[Value.num 1]] ["a"] 0 (Value.num 0) =
      (if specEligibleLabels [[Value.num 1]] ["a"] 0 = [] then mostCommon ["a"]
        else mostCommon (specEligibleLabels [[Value.num 1]] ["a"] 0)) := by
  have hnd : ([[Value.num 1]] : List Sample).Nodup := by simp
  have hL : combinedLabels [[Value.num 1]] ["a"] 0 (Value.num 0) = some ["a"] := by
    with_unfolding_all rfl
  have hc := c5_amended_prune_majority hnd hL
  exact ⟨hnd, hL, hc.1, hc.2.1⟩

/-- Claim C10, counterexample: `predict` on a never-fitted classifier
(`self.tree` is the `None` from `__init__`) applied to the *empty* sample
list performs no traversal at all and successfully returns the empty list,
so being fitted is not a precondition for every input sample list. -/
theorem c10_counterexample :
    predictTop (α := String) none [] = some [] := by
  with_unfolding_all rfl

/-- Claim C10, amended: on a never-fitted classifier, `predict` fails for
every *non-empty* sample list — the first per-sample traversal subscripts
the `None` tree — while the empty list yields the empty output without
error (see the counterexample). -/
theorem c10_amended_unfit_predict :
    ∀ (s : Sample) (ss : List Sample),
    predictTop (α := α) none (s :: ss) = none :=
  fun _ _ => rfl

end DecisionTree
